import Mathlib

set_option maxHeartbeats 1600000

/-!
Verification development for the AI file renamer (src/main.py).

The pure logic of the program is embedded shallowly below, working over
`List Char` (with `String` wrappers matching the Python function names).
Characters are modelled with the ASCII case mapping (`Char.toLower`), which
agrees with Python `str.lower` on ASCII data; Python whitespace is modelled
by its ASCII subset.  I/O (PIL decoding, the OpenAI call, the actual
`os.rename`) is external: the rename orchestrator is embedded as a pure
decision function over an explicit folder listing, taking the gateway's
(already extension-reconciled) suggestion and the confirmation boolean as
inputs.
-/

namespace AIFileRenamer

/-- Reserved filesystem characters removed by `clean_filename`
(`re.sub(r'[<>:"/\\|?*]', "", name)`, main.py line 358). -/
def reservedChars : List Char := ['<', '>', ':', '"', '/', '\\', '|', '?', '*']

/-- Is `c` one of the reserved filesystem characters? -/
def isReserved (c : Char) : Bool := reservedChars.contains c

/-- ASCII whitespace, as recognized by Python `str.split()` / `str.strip()`. -/
def isPySpace (c : Char) : Bool :=
  c == ' ' || c == '\t' || c == '\n' || c == '\x0b' || c == '\x0c' || c == '\r'

/-- Core of `" ".join(name.split())` on input without leading whitespace:
each maximal whitespace run becomes a single space, a trailing run is
dropped. -/
def collapseGo : List Char → List Char
  | [] => []
  | c :: rest =>
    if isPySpace c then
      match collapseGo rest with
      | [] => []
      | d :: r => if d = ' ' then d :: r else ' ' :: d :: r
    else c :: collapseGo rest

/-- `" ".join(name.split())` (main.py line 359): collapse whitespace runs to
single spaces, dropping leading/trailing whitespace. -/
def collapseWS (l : List Char) : List Char := collapseGo (l.dropWhile isPySpace)

/-- Python `str.strip()` on both ends. -/
def stripWS (l : List Char) : List Char :=
  ((l.dropWhile isPySpace).reverse.dropWhile isPySpace).reverse

/-- `name.rstrip(". ")` (main.py line 362). -/
def rstripDotSpace (l : List Char) : List Char :=
  (l.reverse.dropWhile (fun c => c == '.' || c == ' ')).reverse

/-- Python `str.lower()` (ASCII case mapping). -/
def lowerL (l : List Char) : List Char := l.map Char.toLower

/-- `os.path.splitext` (posix): split off the extension starting at the last
dot of the final path component, unless every character of that component
before the last dot is itself a dot (leading dots do not start an
extension). -/
def splitextL (p : List Char) : List Char × List Char :=
  let name := (p.reverse.takeWhile (fun c => c ≠ '/')).reverse
  if name.contains '.' then
    let afterDot := (name.reverse.takeWhile (fun c => c ≠ '.')).reverse
    let stem := name.take (name.length - afterDot.length - 1)
    if stem.any (fun c => c ≠ '.') then
      (p.take (p.length - (afterDot.length + 1)), '.' :: afterDot)
    else (p, [])
  else (p, [])

/-- The fallback base name used by both normalization steps. -/
def renamedFileL : List Char := "renamed_file".toList

/-- `ensure_extension(base_name, ext)` (main.py lines 367-374): trim the
suggestion; empty suggestions fall back to `renamed_file` + ext; otherwise
append the extension when it is non-empty and the suggestion does not already
end with it case-insensitively. -/
def ensureExtensionL (base_name ext : List Char) : List Char :=
  let bn := stripWS base_name
  if bn.isEmpty then renamedFileL ++ ext
  else if ¬ ext.isEmpty ∧ ¬ (lowerL ext).isSuffixOf (lowerL bn) then bn ++ ext
  else bn

/-- `clean_filename(filename)` (main.py lines 352-364): split name/extension,
remove reserved characters from the name, collapse whitespace, strip trailing
dots and spaces, and fall back to `renamed_file` when the name empties. -/
def cleanFilenameL (filename : List Char) : List Char :=
  let name3 :=
    rstripDotSpace (collapseWS ((splitextL filename).1.filter (fun c => !isReserved c)))
  if name3.isEmpty then renamedFileL ++ (splitextL filename).2
  else name3 ++ (splitextL filename).2

/-- String wrapper keeping the source name of `clean_filename`. -/
def clean_filename (filename : String) : String := ⟨cleanFilenameL filename.data⟩

/-- String wrapper keeping the source name of `ensure_extension`. -/
def ensure_extension (base_name ext : String) : String :=
  ⟨ensureExtensionL base_name.data ext.data⟩

/-- `pathlib.Path(p).suffix`: the extension of the final path component,
present only when its last dot is neither the first nor the last character
of that component. -/
def pathSuffixL (p : List Char) : List Char :=
  let name := ((p.reverse.dropWhile (fun c => c = '/')).takeWhile (fun c => c ≠ '/')).reverse
  let rev := name.reverse
  let afterDot := rev.takeWhile (fun c => c ≠ '.')
  if rev.contains '.' then
    if afterDot.length ≠ 0 ∧ name.length - afterDot.length - 1 > 0 then
      '.' :: afterDot.reverse
    else []
  else []

/-- Does `pre` begin `s`?  (Python `str.startswith`.) -/
def startsWithL (s pre : String) : Bool := pre.data.isPrefixOf s.data

-- Extension tables (main.py lines 264-288), kept in source order.

def IMAGE_EXTENSIONS : List String :=
  [".jpg", ".jpeg", ".png", ".gif", ".bmp", ".tiff", ".webp", ".heic"]

def TEXT_EXTENSIONS : List String :=
  [".txt", ".md", ".rst", ".log", ".py", ".js", ".ts", ".html", ".css", ".json",
   ".xml", ".yml", ".yaml", ".csv", ".toml", ".ini", ".cfg", ".sql"]

def PDF_EXTENSIONS : List String := [".pdf"]

def DOCUMENT_EXTENSIONS : List String := [".doc", ".docx", ".rtf", ".odt", ".pages"]

def SPREADSHEET_EXTENSIONS : List String := [".xls", ".xlsx", ".ods", ".numbers", ".csv"]

def PRESENTATION_EXTENSIONS : List String := [".ppt", ".pptx", ".odp", ".key"]

/-- The lowercased `Path(file_path).suffix` used by the classifier. -/
def extensionOf (file_path : String) : String := ⟨lowerL (pathSuffixL file_path.data)⟩

/-- `get_file_category(file_path, mime)` (main.py lines 96-115). -/
def get_file_category (file_path mime : String) : String :=
  let extension := extensionOf file_path
  if extension ∈ IMAGE_EXTENSIONS ∨ startsWithL mime "image/" = true then "image"
  else if extension ∈ TEXT_EXTENSIONS ∨ startsWithL mime "text/" = true ∨
      startsWithL mime "application/json" = true then "text"
  else if extension ∈ PDF_EXTENSIONS ∨ mime = "application/pdf" then "pdf"
  else if extension ∈ DOCUMENT_EXTENSIONS then "document"
  else if extension ∈ SPREADSHEET_EXTENSIONS then "spreadsheet"
  else if extension ∈ PRESENTATION_EXTENSIONS then "presentation"
  else "binary"

/-- The classification the spec's words describe for C1: the six extension
tables consulted in order, first match wins, with no MIME influence.
Clearly spec-side; to be compared with `get_file_category`. -/
def specFirstCategory (extension : String) : String :=
  if extension ∈ IMAGE_EXTENSIONS then "image"
  else if extension ∈ TEXT_EXTENSIONS then "text"
  else if extension ∈ PDF_EXTENSIONS then "pdf"
  else if extension ∈ DOCUMENT_EXTENSIONS then "document"
  else if extension ∈ SPREADSHEET_EXTENSIONS then "spreadsheet"
  else if extension ∈ PRESENTATION_EXTENSIONS then "presentation"
  else "binary"

-- Image payload builder (image_base64_encode, main.py lines 37-74).

/-- Dimension computation of `image_base64_encode` (lines 44-56); Python's
`int()` on the nonnegative quotient is floor, i.e. `Nat` division. -/
def resizeDims (w h : Nat) : Nat × Nat :=
  if w > 1024 ∨ h > 1024 then
    if w > h then (1024, h * 1024 / w)
    else (w * 1024 / h, 1024)
  else (w, h)

/-- Format selection (lines 58-63): PNG exactly for mode RGBA, else JPEG. -/
def chooseImgFormat (mode : String) : String := if mode = "RGBA" then "PNG" else "JPEG"

/-- Mode conversion (lines 60-63): RGBA kept, everything else converted to RGB. -/
def convertedMode (mode : String) : String := if mode = "RGBA" then "RGBA" else "RGB"

/-- Save-quality parameter (lines 67-70): quality 85 only for JPEG. -/
def saveQuality (format : String) : Option Nat :=
  if format = "JPEG" then some 85 else none

/-- The MIME type hard-coded into the data URI by `suggest_image_filename`
(main.py line 145). -/
def imageDataUriMime : String := "image/jpeg"

/-- The MIME type matching an encoding format, as the spec's words demand
for C4 ("data URI with the chosen MIME").  Spec-side definition. -/
def specMimeOfFormat (format : String) : String :=
  if format = "PNG" then "image/png" else "image/jpeg"

-- Rename orchestrator (rename_single_file, main.py lines 305-349).

/-- Outcome of one orchestrator invocation: the returned boolean, the folder
listing afterwards, and the user-facing messages printed on the way. -/
structure RenameOutcome where
  ok : Bool
  folder : List (String × Nat)
  msgs : List String
deriving DecidableEq, Repr

/-- `rename_single_file` decision core (main.py lines 327-346), embedded as a
pure function.  `new_filename` is the value returned by `suggest_filename`
(which has already applied `ensure_extension`); `folder` lists the directory
entries (name, content); `confirm` is `get_user_confirmation`'s answer.
`os.path.exists` on the destination is membership of the cleaned name in the
folder listing, and `os.rename` renames the matching entry in place.  The
pre-flight checks (lines 308-314) and the exception handler (347-349) guard
this core and are not needed by the claims below. -/
def rename_single_file (file_name new_filename : String)
    (folder : List (String × Nat)) (confirm : Bool) : RenameOutcome :=
  if new_filename ≠ "" ∧ new_filename ≠ file_name then
    let cleaned := clean_filename new_filename
    if cleaned ∈ folder.map Prod.fst then
      ⟨false, folder, ["Error: Target file " ++ cleaned ++ " already exists"]⟩
    else if confirm then
      ⟨true, folder.map (fun p => if p.1 = file_name then (cleaned, p.2) else p),
        ["Successfully renamed to: " ++ cleaned]⟩
    else ⟨true, folder, []⟩
  else ⟨true, folder, ["AI suggests keeping original filename: " ++ file_name]⟩

/-- Number of occurrences of `pat` as a contiguous substring of `l`. -/
def countOcc (pat l : List Char) : Nat :=
  ((List.range (l.length + 1)).filter (fun i => pat.isPrefixOf (l.drop i))).length

/-- No two adjacent spaces anywhere in the list. -/
def noTwoSpaces : List Char → Bool
  | a :: b :: r => !(a == ' ' && b == ' ') && noTwoSpaces (b :: r)
  | _ => true

-- ======================================================================
-- Theorems
-- ======================================================================

-- Helper lemmas about the character-level pipeline.

/-- Heads produced by `dropWhile` falsify the predicate. -/
theorem head_dropWhile_not (p : Char → Bool) (l : List Char) :
    ∀ c r, l.dropWhile p = c :: r → p c = false := by
  induction l with
  | nil => intro c r h; simp [List.dropWhile] at h
  | cons a t ih =>
    intro c r h
    by_cases hp : p a = true
    · rw [List.dropWhile_cons_of_pos hp] at h
      exact ih c r h
    · rw [List.dropWhile_cons_of_neg hp] at h
      injection h with h1 _
      subst h1
      exact Bool.eq_false_iff.mpr hp

/-- Unfolding equation for `collapseGo` at a non-whitespace head. -/
theorem collapseGo_cons_nows (a : Char) (t : List Char) (ha : isPySpace a = false) :
    collapseGo (a :: t) = a :: collapseGo t := by
  rw [collapseGo, if_neg (by simp [ha])]

/-- Unfolding equation for `collapseGo` at a whitespace head when the rest
collapses to nothing. -/
theorem collapseGo_cons_ws_nil (a : Char) (t : List Char) (ha : isPySpace a = true)
    (hgo : collapseGo t = []) : collapseGo (a :: t) = [] := by
  rw [collapseGo, if_pos ha, hgo]

/-- Unfolding equation for `collapseGo` at a whitespace head when the rest
collapses to a nonempty list. -/
theorem collapseGo_cons_ws_cons (a d : Char) (t r : List Char) (ha : isPySpace a = true)
    (hgo : collapseGo t = d :: r) :
    collapseGo (a :: t) = if d = ' ' then d :: r else ' ' :: d :: r := by
  rw [collapseGo, if_pos ha, hgo]

/-- Characters of `collapseGo l` come from `l` or are the inserted space. -/
theorem collapseGo_chars (l : List Char) : ∀ c ∈ collapseGo l, c ∈ l ∨ c = ' ' := by
  induction l with
  | nil => simp [collapseGo]
  | cons a t ih =>
    intro c hc
    by_cases ha : isPySpace a = true
    · rcases hgo : collapseGo t with _ | ⟨d, r⟩
      · rw [collapseGo_cons_ws_nil a t ha hgo] at hc
        simp at hc
      · rw [collapseGo_cons_ws_cons a d t r ha hgo] at hc
        by_cases hd : d = ' '
        · rw [if_pos hd] at hc
          rcases ih c (hgo ▸ hc) with h | h
          · exact Or.inl (List.mem_cons_of_mem _ h)
          · exact Or.inr h
        · rw [if_neg hd] at hc
          rcases List.mem_cons.mp hc with h | h
          · exact Or.inr h
          · rcases ih c (hgo ▸ h) with h' | h'
            · exact Or.inl (List.mem_cons_of_mem _ h')
            · exact Or.inr h'
    · rw [collapseGo_cons_nows a t (Bool.eq_false_iff.mpr ha)] at hc
      rcases List.mem_cons.mp hc with h | h
      · exact Or.inl (h ▸ List.mem_cons_self _ _)
      · rcases ih c h with h' | h'
        · exact Or.inl (List.mem_cons_of_mem _ h')
        · exact Or.inr h'

/-- Characters of `collapseWS l` come from `l` or are the inserted space. -/
theorem collapseWS_chars (l : List Char) : ∀ c ∈ collapseWS l, c ∈ l ∨ c = ' ' := by
  intro c hc
  rcases collapseGo_chars _ c hc with h | h
  · exact Or.inl ((List.dropWhile_suffix isPySpace).subset h)
  · exact Or.inr h

/-- Whitespace surviving `collapseGo` is exactly the plain space. -/
theorem collapseGo_ws_eq_space (l : List Char) :
    ∀ c ∈ collapseGo l, isPySpace c = true → c = ' ' := by
  induction l with
  | nil => simp [collapseGo]
  | cons a t ih =>
    intro c hc hws
    by_cases ha : isPySpace a = true
    · rcases hgo : collapseGo t with _ | ⟨d, r⟩
      · rw [collapseGo_cons_ws_nil a t ha hgo] at hc
        simp at hc
      · rw [collapseGo_cons_ws_cons a d t r ha hgo] at hc
        by_cases hd : d = ' '
        · rw [if_pos hd] at hc
          exact ih c (hgo ▸ hc) hws
        · rw [if_neg hd] at hc
          rcases List.mem_cons.mp hc with h | h
          · exact h
          · exact ih c (hgo ▸ h) hws
    · rw [collapseGo_cons_nows a t (Bool.eq_false_iff.mpr ha)] at hc
      rcases List.mem_cons.mp hc with h | h
      · subst h
        exact absurd hws ha
      · exact ih c h hws

/-- Prepending a non-space keeps `noTwoSpaces`. -/
theorem noTwoSpaces_cons_of_ne (a : Char) (x : List Char) (ha : a ≠ ' ')
    (hx : noTwoSpaces x = true) : noTwoSpaces (a :: x) = true := by
  cases x with
  | nil => rfl
  | cons b r =>
    show (!(a == ' ' && b == ' ') && noTwoSpaces (b :: r)) = true
    rw [hx, beq_eq_false_iff_ne.mpr ha]
    rfl

/-- Prepending a space before a non-space keeps `noTwoSpaces`. -/
theorem noTwoSpaces_space_cons (d : Char) (r : List Char) (hd : d ≠ ' ')
    (hx : noTwoSpaces (d :: r) = true) : noTwoSpaces (' ' :: d :: r) = true := by
  show (!(' ' == ' ' && d == ' ') && noTwoSpaces (d :: r)) = true
  rw [hx, beq_eq_false_iff_ne.mpr hd]
  rfl

/-- `collapseGo` never produces two adjacent spaces. -/
theorem collapseGo_noTwoSpaces (l : List Char) : noTwoSpaces (collapseGo l) = true := by
  induction l with
  | nil => rfl
  | cons a t ih =>
    by_cases ha : isPySpace a = true
    · rcases hgo : collapseGo t with _ | ⟨d, r⟩
      · rw [collapseGo_cons_ws_nil a t ha hgo]
        rfl
      · rw [collapseGo_cons_ws_cons a d t r ha hgo]
        by_cases hd : d = ' '
        · rw [if_pos hd]
          exact hgo ▸ ih
        · rw [if_neg hd]
          exact noTwoSpaces_space_cons d r hd (hgo ▸ ih)
    · rw [collapseGo_cons_nows a t (Bool.eq_false_iff.mpr ha)]
      have hane : a ≠ ' ' := by
        intro h
        subst h
        exact ha rfl
      exact noTwoSpaces_cons_of_ne a _ hane ih

/-- The tail of a `noTwoSpaces` list again satisfies `noTwoSpaces`. -/
theorem noTwoSpaces_tail (a : Char) (x : List Char)
    (h : noTwoSpaces (a :: x) = true) : noTwoSpaces x = true := by
  cases x with
  | nil => rfl
  | cons b r =>
    have := (Bool.and_eq_true _ _).mp h
    exact this.2

/-- `noTwoSpaces` restricts to a left factor. -/
theorem noTwoSpaces_append_left (x y : List Char)
    (h : noTwoSpaces (x ++ y) = true) : noTwoSpaces x = true := by
  induction x with
  | nil => rfl
  | cons a t ih =>
    cases t with
    | nil => rfl
    | cons b r =>
      have h' : noTwoSpaces (a :: b :: (r ++ y)) = true := h
      have h1 := (Bool.and_eq_true _ _).mp h'
      show (!(a == ' ' && b == ' ') && noTwoSpaces (b :: r)) = true
      rw [h1.1, ih (noTwoSpaces_tail a (b :: (r ++ y)) h')]
      rfl

/-- The last character of `collapseGo l` is never whitespace. -/
theorem collapseGo_getLast_nonws (l : List Char) :
    ∀ c, (collapseGo l).getLast? = some c → isPySpace c = false := by
  induction l with
  | nil => intro c h; simp [collapseGo] at h
  | cons a t ih =>
    intro c h
    by_cases ha : isPySpace a = true
    · rcases hgo : collapseGo t with _ | ⟨d, r⟩
      · rw [collapseGo_cons_ws_nil a t ha hgo] at h
        simp at h
      · rw [collapseGo_cons_ws_cons a d t r ha hgo] at h
        by_cases hd : d = ' '
        · rw [if_pos hd] at h
          exact ih c (hgo ▸ h)
        · rw [if_neg hd, List.getLast?_cons_cons] at h
          exact ih c (hgo ▸ h)
    · rw [collapseGo_cons_nows a t (Bool.eq_false_iff.mpr ha)] at h
      rcases hgo : collapseGo t with _ | ⟨d, r⟩
      · rw [hgo] at h
        simp at h
        subst h
        exact Bool.eq_false_iff.mpr ha
      · rw [hgo, List.getLast?_cons_cons] at h
        exact ih c (hgo ▸ h)

/-- `rstripDotSpace` splits the input into the kept part and a stripped tail
of dots and spaces. -/
theorem rstrip_decomp (l : List Char) :
    ∃ t, l = rstripDotSpace l ++ t ∧ ∀ c ∈ t, c = '.' ∨ c = ' ' := by
  refine ⟨(l.reverse.takeWhile (fun c => c == '.' || c == ' ')).reverse, ?_, ?_⟩
  · unfold rstripDotSpace
    conv_lhs => rw [← List.reverse_reverse l]
    rw [← List.reverse_append, List.takeWhile_append_dropWhile]
  · intro c hc
    have h1 : c ∈ l.reverse.takeWhile (fun c => c == '.' || c == ' ') :=
      List.mem_reverse.mp hc
    have h2 := List.mem_takeWhile_imp h1
    simp only [Bool.or_eq_true, beq_iff_eq] at h2
    exact h2

/-- Characters of `rstripDotSpace l` are characters of `l`. -/
theorem mem_rstrip (l : List Char) : ∀ c ∈ rstripDotSpace l, c ∈ l := by
  intro c hc
  unfold rstripDotSpace at hc
  have h1 : c ∈ l.reverse.dropWhile (fun c => c == '.' || c == ' ') :=
    List.mem_reverse.mp hc
  exact List.mem_reverse.mp ((List.dropWhile_suffix _).subset h1)

/-- The kept part of `rstripDotSpace` never ends in a dot or space. -/
theorem rstrip_getLast (l : List Char) :
    ∀ c, (rstripDotSpace l).getLast? = some c → c ≠ '.' ∧ c ≠ ' ' := by
  intro c h
  unfold rstripDotSpace at h
  rw [List.getLast?_reverse] at h
  rcases hd : l.reverse.dropWhile (fun c => c == '.' || c == ' ') with _ | ⟨d, r⟩
  · rw [hd] at h
    simp at h
  · rw [hd] at h
    simp only [List.head?_cons, Option.some_inj] at h
    subst h
    have := head_dropWhile_not _ _ _ _ hd
    simp only [Bool.or_eq_false_iff, beq_eq_false_iff_ne] at this
    exact this

/-- Once the final character is neither dot nor space, `rstripDotSpace` is
the identity. -/
theorem rstrip_eq_self (l : List Char)
    (h : ∀ c, l.getLast? = some c → c ≠ '.' ∧ c ≠ ' ') : rstripDotSpace l = l := by
  rcases hl : l.reverse with _ | ⟨d, r⟩
  · have hnil : l = [] := by
      have := congrArg List.reverse hl
      simpa using this
    simp [hnil, rstripDotSpace]
  · have hd : l.getLast? = some d := by
      rw [← List.head?_reverse, hl]
      rfl
    have hne := h d hd
    have hp : (d == '.' || d == ' ') = false := by
      rw [beq_eq_false_iff_ne.mpr hne.1, beq_eq_false_iff_ne.mpr hne.2]
      rfl
    unfold rstripDotSpace
    rw [hl, List.dropWhile_cons_of_neg (by simp [hp]), ← hl, List.reverse_reverse]

/-- C4 (counterexample): for an image of mode RGBA the builder chooses the
PNG format, yet the data URI built by `suggest_image_filename` declares
`image/jpeg`, not the MIME matching the chosen format. -/
theorem C4_counterexample :
    chooseImgFormat "RGBA" = "PNG" ∧
    imageDataUriMime ≠ specMimeOfFormat (chooseImgFormat "RGBA") := by
  constructor
  · rfl
  · intro h
    simp only [chooseImgFormat, if_pos rfl, specMimeOfFormat, if_pos rfl,
      imageDataUriMime] at h
    exact absurd h (by decide)

/-- C4 (amended): the builder chooses PNG exactly when the decoded mode is
the string `RGBA` (alpha-bearing modes other than RGBA are converted to RGB
and encoded as JPEG), JPEG is saved at quality 85 and PNG without a quality
parameter, and the data URI always declares `image/jpeg` regardless of the
chosen format. -/
theorem C4_amended (mode : String) :
    (chooseImgFormat mode = "PNG" ↔ mode = "RGBA") ∧
    (chooseImgFormat mode = "JPEG" ↔ mode ≠ "RGBA") ∧
    saveQuality "JPEG" = some 85 ∧
    saveQuality "PNG" = none ∧
    (mode ≠ "RGBA" → convertedMode mode = "RGB") ∧
    imageDataUriMime = "image/jpeg" := by
  unfold chooseImgFormat convertedMode saveQuality imageDataUriMime
  by_cases h : mode = "RGBA" <;> simp [h]

/-- C4 (witness for the amended theorem): evaluated at the gray+alpha mode
`LA`, which is not RGBA and hence is encoded as JPEG after RGB conversion. -/
theorem C4_amended_witness :
    chooseImgFormat "LA" = "JPEG" ∧ convertedMode "LA" = "RGB" := by
  have h := C4_amended "LA"
  exact ⟨h.2.1.mpr (by decide), h.2.2.2.2.1 (by decide)⟩

/-- C8 (confirmed): when either original dimension exceeds 1024, the computed
dimensions have longer side exactly 1024 and preserve the aspect ratio to
within one pixel of truncation (`new * long ≤ short * 1024 < (new + 1) * long`);
when both dimensions are at most 1024 the image is not resized. -/
theorem C8_resize (w h : Nat) (hw : 0 < w) (hh : 0 < h) :
    ((1024 < w ∨ 1024 < h) →
      max (resizeDims w h).1 (resizeDims w h).2 = 1024 ∧
      (h < w →
        (resizeDims w h).2 * w ≤ h * 1024 ∧ h * 1024 < ((resizeDims w h).2 + 1) * w) ∧
      (w ≤ h →
        (resizeDims w h).1 * h ≤ w * 1024 ∧ w * 1024 < ((resizeDims w h).1 + 1) * h)) ∧
    (w ≤ 1024 → h ≤ 1024 → resizeDims w h = (w, h)) := by
  constructor
  · intro hbig
    unfold resizeDims
    rw [if_pos hbig]
    by_cases hwh : w > h
    · rw [if_pos hwh]
      refine ⟨?_, fun _ => ⟨Nat.div_mul_le_self _ _, ?_⟩, fun hle => absurd hwh (by omega)⟩
      · have hlt : h * 1024 / w < 1024 := by
          rw [Nat.div_lt_iff_lt_mul hw]
          have : h + 1 ≤ w := hwh
          calc h * 1024 < (h + 1) * 1024 := by omega
            _ ≤ w * 1024 := Nat.mul_le_mul_right _ this
            _ = 1024 * w := Nat.mul_comm _ _
        simp [Nat.max_eq_left (Nat.le_of_lt hlt)]
      · exact (Nat.div_lt_iff_lt_mul hw).mp (Nat.lt_succ_self _)
    · rw [if_neg hwh]
      have hwh' : w ≤ h := by omega
      refine ⟨?_, fun hlt => absurd hlt (by omega),
        fun _ => ⟨Nat.div_mul_le_self _ _, (Nat.div_lt_iff_lt_mul hh).mp (Nat.lt_succ_self _)⟩⟩
      have hle : w * 1024 / h ≤ 1024 := by
        have h1 : w * 1024 ≤ h * 1024 := Nat.mul_le_mul_right _ hwh'
        calc w * 1024 / h ≤ h * 1024 / h := Nat.div_le_div_right h1
          _ = 1024 := by rw [Nat.mul_comm]; exact Nat.mul_div_cancel _ hh
      simp [Nat.max_eq_right hle]
  · intro h1 h2
    unfold resizeDims
    rw [if_neg (by omega)]

/-- C8 (witness): a 2048 by 1000 image is resized to 1024 by 500, the longer
side is 1024 and the aspect-ratio bounds hold; an 800 by 600 image is kept. -/
theorem C8_resize_witness :
    max (resizeDims 2048 1000).1 (resizeDims 2048 1000).2 = 1024 ∧
    (resizeDims 2048 1000).2 * 2048 ≤ 1000 * 1024 ∧
    1000 * 1024 < ((resizeDims 2048 1000).2 + 1) * 2048 ∧
    resizeDims 800 600 = (800, 600) := by
  have h1 := C8_resize 2048 1000 (by decide) (by decide)
  have h2 := C8_resize 800 600 (by decide) (by decide)
  have h1a := h1.1 (Or.inl (by decide))
  have h1b := h1a.2.1 (by decide)
  exact ⟨h1a.1, h1b.1, h1b.2, h2.2 (by decide) (by decide)⟩

/-- C6 (confirmed): on an already-trimmed suggestion, `ensure_extension`
returns the fallback plus extension when the suggestion is empty, appends the
extension exactly when the extension is non-empty and the suggestion does
not already end with it case-insensitively, and otherwise returns the
suggestion as-is; in particular the three documented examples hold. -/
theorem C6_ensure_extension (s ext : List Char) (hs : stripWS s = s) :
    (s = [] → ensureExtensionL s ext = renamedFileL ++ ext) ∧
    (s ≠ [] → ext ≠ [] → (lowerL ext).isSuffixOf (lowerL s) = false →
      ensureExtensionL s ext = s ++ ext) ∧
    (s ≠ [] → (ext = [] ∨ (lowerL ext).isSuffixOf (lowerL s) = true) →
      ensureExtensionL s ext = s) ∧
    ensure_extension "report" ".pdf" = "report.pdf" ∧
    ensure_extension "Report.PDF" ".pdf" = "Report.PDF" ∧
    ensure_extension "" ".txt" = "renamed_file.txt" := by
  refine ⟨?_, ?_, ?_, by decide, by decide, by decide⟩
  · intro h
    subst h
    simp [ensureExtensionL, hs]
  · intro hne hext hsuf
    simp only [ensureExtensionL, hs]
    rw [if_neg (by simpa [List.isEmpty_iff] using hne),
      if_pos ⟨by simpa [List.isEmpty_iff] using hext, by simp [hsuf]⟩]
  · intro hne hor
    simp only [ensureExtensionL, hs]
    rw [if_neg (by simpa [List.isEmpty_iff] using hne), if_neg ?_]
    rcases hor with h | h
    · intro hc
      exact hc.1 (by simp [h, List.isEmpty_iff])
    · intro hc
      exact hc.2 (by simp [h])

/-- C6 (witness): evaluated at the suggestion `Budget` with extension
`.pdf`, where the extension is appended. -/
theorem C6_ensure_extension_witness :
    ensureExtensionL "Budget".toList ".pdf".toList = "Budget".toList ++ ".pdf".toList :=
  (C6_ensure_extension "Budget".toList ".pdf".toList (by decide)).2.1
    (by decide) (by decide) (by decide)

/-- C9 (confirmed): every path whose (lowercased) extension is `.csv`,
together with its associated MIME type `text/csv`, is classified `text`: the
text table is consulted before the spreadsheet table, which also lists
`.csv`. -/
theorem C9_csv_is_text (path : String) (h : extensionOf path = ".csv") :
    get_file_category path "text/csv" = "text" ∧
    ".csv" ∈ TEXT_EXTENSIONS ∧ ".csv" ∈ SPREADSHEET_EXTENSIONS := by
  refine ⟨?_, by decide, by decide⟩
  unfold get_file_category
  rw [h]
  decide

/-- C9 (witness): evaluated at the upper-case path `Data.CSV`. -/
theorem C9_csv_is_text_witness :
    get_file_category "Data.CSV" "text/csv" = "text" :=
  (C9_csv_is_text "Data.CSV" (by decide)).1

/-- C1 (counterexample): the extension `.csv` appears in the text table (and
in no earlier table), yet with MIME `image/png` the classifier returns
`image`, not the category `text` of the first table containing the
extension: the MIME checks are interleaved with the extension checks rather
than applied only after all six tables fail. -/
theorem C1_counterexample :
    extensionOf "data.csv" = ".csv" ∧
    specFirstCategory ".csv" = "text" ∧
    get_file_category "data.csv" "image/png" = "image" ∧
    ("image" : String) ≠ "text" := by
  refine ⟨by decide, by decide, by decide, by decide⟩

/-- C1 (amended): `get_file_category` evaluates six ordered checks (image,
text, pdf, document, spreadsheet, presentation), first match wins and the
fallback is `binary`; the image, text and pdf checks also fire on their MIME
conditions, so a MIME match can override a later table's extension match.
Consequently: whenever the MIME triggers none of the three MIME conditions,
the result is exactly the category of the first extension table containing
the lowercased extension (`binary` when none does); and a MIME starting with
`image/` always yields `image`. -/
theorem C1_amended (path mime : String) :
    ((startsWithL mime "image/" = false ∧ startsWithL mime "text/" = false ∧
      startsWithL mime "application/json" = false ∧ mime ≠ "application/pdf") →
      get_file_category path mime = specFirstCategory (extensionOf path)) ∧
    (startsWithL mime "image/" = true → get_file_category path mime = "image") := by
  constructor
  · rintro ⟨h1, h2, h3, h4⟩
    unfold get_file_category specFirstCategory
    simp only [h1, h2, h3, h4]
    simp
  · intro h
    unfold get_file_category
    simp [h]

/-- C1 (witness for the amended theorem): `notes.txt` with the non-special
MIME `application/octet-stream` classifies by its extension table (`text`),
and `report.doc` with MIME `image/png` classifies as `image`. -/
theorem C1_amended_witness :
    get_file_category "notes.txt" "application/octet-stream" =
      specFirstCategory (extensionOf "notes.txt") ∧
    get_file_category "report.doc" "image/png" = "image" :=
  ⟨(C1_amended "notes.txt" "application/octet-stream").1
      ⟨by decide, by decide, by decide, by decide⟩,
    (C1_amended "report.doc" "image/png").2 (by decide)⟩

/-- C2 (counterexample): for the suggestion `a/b` on file `ab.txt`, the fully
normalized filename (`clean_filename` after `ensure_extension`) equals the
original filename `ab.txt`, yet the orchestrator reports failure with a
collision message rather than the claimed success: the short-circuit compares
the name before sanitization, and the destination then collides with the
file itself. -/
theorem C2_counterexample :
    ensure_extension "a/b" ".txt" = "a/b.txt" ∧
    clean_filename (ensure_extension "a/b" ".txt") = "ab.txt" ∧
    rename_single_file "ab.txt" (ensure_extension "a/b" ".txt") [("ab.txt", 7)] true =
      ⟨false, [("ab.txt", 7)], ["Error: Target file ab.txt already exists"]⟩ := by
  refine ⟨by decide, by decide, by decide⟩

/-- C2 (amended): when the filename produced by the suggestion step (that is,
after extension reconciliation but before sanitization) equals the original
filename, the orchestrator short-circuits to success, performs no filesystem
change, and reports that the AI suggests keeping the original name; when
only the sanitized suggestion equals the original filename (and the original
file is listed in the folder), the orchestrator instead reports a collision
failure, still performing no filesystem change. -/
theorem C2_amended (file_name new_filename : String) (folder : List (String × Nat))
    (confirm : Bool) :
    (rename_single_file file_name file_name folder confirm =
      ⟨true, folder, ["AI suggests keeping original filename: " ++ file_name]⟩) ∧
    (new_filename ≠ "" → new_filename ≠ file_name →
      clean_filename new_filename = file_name → file_name ∈ folder.map Prod.fst →
      rename_single_file file_name new_filename folder confirm =
        ⟨false, folder, ["Error: Target file " ++ file_name ++ " already exists"]⟩) := by
  constructor
  · unfold rename_single_file
    simp
  · intro h1 h2 hclean hmem
    unfold rename_single_file
    rw [if_pos ⟨h1, h2⟩, hclean, if_pos hmem]

/-- C2 (witness for the amended theorem): for the file `ab.txt` and the
suggestion `a/b.txt` (whose sanitized form is again `ab.txt`), the collision
branch fires; the no-op branch is exercised at the same folder. -/
theorem C2_amended_witness :
    (rename_single_file "ab.txt" "ab.txt" [("ab.txt", 7)] true =
      ⟨true, [("ab.txt", 7)], ["AI suggests keeping original filename: " ++ "ab.txt"]⟩) ∧
    rename_single_file "ab.txt" "a/b.txt" [("ab.txt", 7)] true =
      ⟨false, [("ab.txt", 7)], ["Error: Target file " ++ "ab.txt" ++ " already exists"]⟩ :=
  ⟨(C2_amended "ab.txt" "a/b.txt" [("ab.txt", 7)] true).1,
    (C2_amended "ab.txt" "a/b.txt" [("ab.txt", 7)] true).2
      (by decide) (by decide) (by decide) (by decide)⟩

/-- C5 (confirmed): whenever the orchestrator computes a destination (the
suggestion is non-empty and differs from the original name) and a file with
the cleaned destination name already exists in the folder, it returns
failure with the collision message and the folder is left entirely
unchanged: no rename, no retry, no suffixing. -/
theorem C5_collision (file_name new_filename : String) (folder : List (String × Nat))
    (confirm : Bool) (h1 : new_filename ≠ "") (h2 : new_filename ≠ file_name)
    (h3 : clean_filename new_filename ∈ folder.map Prod.fst) :
    rename_single_file file_name new_filename folder confirm =
      ⟨false, folder,
        ["Error: Target file " ++ clean_filename new_filename ++ " already exists"]⟩ := by
  unfold rename_single_file
  rw [if_pos ⟨h1, h2⟩, if_pos h3]

/-- C5 (witness): `target.txt` exists alongside `Q3 Budget.txt`; the
suggested name `Q3 Budget.txt` collides, the invocation fails and both
directory entries are untouched. -/
theorem C5_collision_witness :
    rename_single_file "target.txt" "Q3 Budget.txt"
        [("target.txt", 0), ("Q3 Budget.txt", 1)] true =
      ⟨false, [("target.txt", 0), ("Q3 Budget.txt", 1)],
        ["Error: Target file " ++ clean_filename "Q3 Budget.txt" ++ " already exists"]⟩ :=
  C5_collision "target.txt" "Q3 Budget.txt" [("target.txt", 0), ("Q3 Budget.txt", 1)] true
    (by decide) (by decide) (by decide)

/-- C7 (confirmed): `clean_filename` leaves the `splitext` extension part
unchanged as a suffix; the resulting base name contains no reserved
characters, has all whitespace collapsed to single non-adjacent spaces,
is non-empty, never ends in a dot or space, and is either the sanitized
base or the `renamed_file` fallback when sanitization empties the base;
the documented example `clean("a/b:c*.txt") = "abc.txt"` holds. -/
theorem C7_clean_filename (fn : List Char) :
    ∃ b : List Char,
      cleanFilenameL fn = b ++ (splitextL fn).2 ∧
      (∀ c ∈ b, isReserved c = false) ∧
      (∀ c ∈ b, isPySpace c = true → c = ' ') ∧
      noTwoSpaces b = true ∧
      b ≠ [] ∧
      (∀ c, b.getLast? = some c → c ≠ '.' ∧ c ≠ ' ') ∧
      (b = renamedFileL ∨
        b = rstripDotSpace (collapseWS ((splitextL fn).1.filter (fun c => !isReserved c)))) ∧
      cleanFilenameL "a/b:c*.txt".toList = "abc.txt".toList := by
  by_cases h :
      (rstripDotSpace (collapseWS ((splitextL fn).1.filter (fun c => !isReserved c)))).isEmpty
  · refine ⟨renamedFileL, ?_, by decide, by decide, by decide, by decide, by decide,
      Or.inl rfl, by decide⟩
    simp only [cleanFilenameL]
    rw [if_pos h]
  · refine ⟨rstripDotSpace (collapseWS ((splitextL fn).1.filter (fun c => !isReserved c))),
      ?_, ?_, ?_, ?_, ?_, rstrip_getLast _, Or.inr rfl, by decide⟩
    · simp only [cleanFilenameL]
      rw [if_neg h]
    · intro c hc
      rcases collapseWS_chars _ c (mem_rstrip _ c hc) with h1 | h1
      · have := List.of_mem_filter h1
        simpa using this
      · subst h1
        decide
    · intro c hc
      exact collapseGo_ws_eq_space _ c (mem_rstrip _ c hc)
    · obtain ⟨t, ht, _⟩ :=
        rstrip_decomp (collapseWS ((splitextL fn).1.filter (fun c => !isReserved c)))
      exact noTwoSpaces_append_left _ t (ht ▸ collapseGo_noTwoSpaces _)
    · simpa [List.isEmpty_iff] using h

/-- C7 (witness): the theorem evaluated at the documented example input,
whose sanitized base is the concrete `abc`. -/
theorem C7_clean_filename_witness :
    cleanFilenameL "a/b:c*.txt".toList =
      rstripDotSpace
          (collapseWS ((splitextL "a/b:c*.txt".toList).1.filter (fun c => !isReserved c))) ++
        (splitextL "a/b:c*.txt".toList).2 ∧
    cleanFilenameL "a/b:c*.txt".toList = "abc.txt".toList := by
  obtain ⟨b, h1, _, _, _, _, _, h7, h8⟩ := C7_clean_filename "a/b:c*.txt".toList
  rcases h7 with h7 | h7
  · exact absurd (h7 ▸ h1) (by decide)
  · exact ⟨h7 ▸ h1, h8⟩


-- Character-level facts about the ASCII case mapping, needed to transfer
-- character classes along case-insensitive comparisons.

/-- `Char.ofNat` of a valid codepoint converts back to the same `Nat`. -/
theorem toNat_ofNat_valid (n : Nat) (h : n.isValidChar) : (Char.ofNat n).toNat = n := by
  unfold Char.ofNat
  rw [dif_pos h]
  unfold Char.ofNatAux Char.toNat
  simp [UInt32.toNat]

/-- Lowercasing an upper-case letter adds 32 to the codepoint. -/
theorem toLower_toNat_upper (c : Char) (h : 65 ≤ c.toNat ∧ c.toNat ≤ 90) :
    (Char.toLower c).toNat = c.toNat + 32 := by
  unfold Char.toLower
  rw [if_pos ⟨h.1, h.2⟩]
  exact toNat_ofNat_valid _ (Or.inl (by omega))

/-- Lowercasing fixes every character that is not an upper-case letter. -/
theorem toLower_eq_self_of_not_upper (c : Char) (h : ¬(65 ≤ c.toNat ∧ c.toNat ≤ 90)) :
    Char.toLower c = c := by
  unfold Char.toLower
  rw [if_neg (by exact fun hc => h ⟨hc.1, hc.2⟩)]

/-- For a target character that is not a letter of either case, lowercasing
reflects equality. -/
theorem toLower_eq_nonletter (c d : Char)
    (hd : d.toNat < 65 ∨ (90 < d.toNat ∧ d.toNat < 97) ∨ 122 < d.toNat) :
    Char.toLower c = d ↔ c = d := by
  constructor
  · intro h
    by_cases hc : 65 ≤ c.toNat ∧ c.toNat ≤ 90
    · exfalso
      have h1 := toLower_toNat_upper c hc
      rw [h] at h1
      omega
    · rwa [toLower_eq_self_of_not_upper c hc] at h
  · intro h
    subst h
    exact toLower_eq_self_of_not_upper c (by omega)

/-- Equality with a non-letter character transfers back through `toLower`. -/
theorem eq_of_toLower_eq_nonletter (x d : Char) (h : Char.toLower x = Char.toLower d)
    (hd : d.toNat < 65 ∨ (90 < d.toNat ∧ d.toNat < 97) ∨ 122 < d.toNat) : x = d := by
  rw [toLower_eq_self_of_not_upper d (by omega)] at h
  exact (toLower_eq_nonletter x d hd).mp h

/-- Case-insensitively equal characters lie in the same special classes
(dot, reserved, whitespace). -/
theorem special_transfer (x y : Char) (h : Char.toLower x = Char.toLower y) :
    (y = '.' → x = '.') ∧ (isReserved y = true → isReserved x = true) ∧
    (isPySpace y = true → isPySpace x = true) := by
  refine ⟨?_, ?_, ?_⟩
  · intro hy
    subst hy
    exact eq_of_toLower_eq_nonletter x '.' h (by decide)
  · intro hy
    have hmem : y ∈ reservedChars := by
      simpa [isReserved, List.contains] using hy
    fin_cases hmem <;>
      · have hx := eq_of_toLower_eq_nonletter x _ h (by decide)
        subst hx
        decide
  · intro hy
    simp only [isPySpace, Bool.or_eq_true, beq_iff_eq] at hy
    rcases hy with ((((rfl | rfl) | rfl) | rfl) | rfl) | rfl <;>
      · have hx := eq_of_toLower_eq_nonletter x _ h (by decide)
        subst hx
        decide

/-- Goodness for an extension (not a dot, not reserved, not whitespace)
transfers along `lowerL` equality. -/
theorem lower_eq_transfer_good (a b : List Char) (h : lowerL a = lowerL b)
    (hb : ∀ c ∈ b, c ≠ '.' ∧ isReserved c = false ∧ isPySpace c = false) :
    ∀ c ∈ a, c ≠ '.' ∧ isReserved c = false ∧ isPySpace c = false := by
  induction a generalizing b with
  | nil => intro c hc; simp at hc
  | cons x a' ih =>
    cases b with
    | nil => exact absurd (congrArg List.length h) (by simp [lowerL])
    | cons y b' =>
      intro c hc
      simp only [lowerL, List.map_cons, List.cons.injEq] at h
      rcases List.mem_cons.mp hc with hcx | hc'
      · subst hcx
        have hy := hb y (List.mem_cons_self _ _)
        have ht := special_transfer y c h.1.symm
        refine ⟨fun hcd => hy.1 (ht.1 hcd), ?_, ?_⟩
        · cases hr : isReserved c
          · rfl
          · exact absurd (ht.2.1 hr) (by rw [hy.2.1]; exact Bool.false_ne_true)
        · cases hr : isPySpace c
          · rfl
          · exact absurd (ht.2.2 hr) (by rw [hy.2.2]; exact Bool.false_ne_true)
      · exact ih b' h.2 (fun d hd => hb d (List.mem_cons_of_mem _ hd)) c hc'

-- Splitting and collapsing in the presence of a well-formed extension block.

/-- `collapseGo` is the identity on whitespace-free input. -/
theorem collapseGo_eq_self_nonws (B : List Char) (hB : ∀ c ∈ B, isPySpace c = false) :
    collapseGo B = B := by
  induction B with
  | nil => rfl
  | cons b B' ih =>
    rw [collapseGo_cons_nows b B' (hB b (List.mem_cons_self _ _))]
    rw [ih (fun c hc => hB c (List.mem_cons_of_mem _ hc))]

/-- Appending a nonempty whitespace-free block survives `collapseGo`
unchanged, at the end. -/
theorem collapseGo_append_block (A B : List Char) (hB : B ≠ [])
    (hBn : ∀ c ∈ B, isPySpace c = false) :
    ∃ C, collapseGo (A ++ B) = C ++ B ∧ ∀ c ∈ C, c ∈ A ∨ c = ' ' := by
  induction A with
  | nil =>
    refine ⟨[], ?_, by simp⟩
    simpa using collapseGo_eq_self_nonws B hBn
  | cons a A' ih =>
    obtain ⟨C, hC, hCm⟩ := ih
    by_cases ha : isPySpace a = true
    · have hne : C ++ B ≠ [] := List.append_ne_nil_of_right_ne_nil C hB
      obtain ⟨d, r, hX⟩ := List.exists_cons_of_ne_nil hne
      have heq : collapseGo (A' ++ B) = d :: r := hC.trans hX
      rw [show (a :: A') ++ B = a :: (A' ++ B) from rfl,
        collapseGo_cons_ws_cons a d (A' ++ B) r ha heq]
      by_cases hd : d = ' '
      · rw [if_pos hd, ← hX]
        exact ⟨C, rfl, fun c hc => (hCm c hc).imp (List.mem_cons_of_mem _) id⟩
      · rw [if_neg hd]
        refine ⟨' ' :: C, ?_, ?_⟩
        · rw [show (' ' :: C) ++ B = ' ' :: (C ++ B) from rfl, ← hX]
        · intro c hc
          rcases List.mem_cons.mp hc with hcs | hc'
          · exact Or.inr hcs
          · exact (hCm c hc').imp (List.mem_cons_of_mem _) id
    · rw [show (a :: A') ++ B = a :: (A' ++ B) from rfl,
        collapseGo_cons_nows a (A' ++ B) (Bool.eq_false_iff.mpr ha), hC]
      refine ⟨a :: C, rfl, ?_⟩
      intro c hc
      rcases List.mem_cons.mp hc with hca | hc'
      · exact Or.inl (hca ▸ List.mem_cons_self _ _)
      · exact (hCm c hc').imp (List.mem_cons_of_mem _) id

/-- The same, through the leading-whitespace drop of `collapseWS`. -/
theorem collapseWS_append_block (A B : List Char) (hB : B ≠ [])
    (hBn : ∀ c ∈ B, isPySpace c = false) :
    ∃ C, collapseWS (A ++ B) = C ++ B ∧ ∀ c ∈ C, c ∈ A ∨ c = ' ' := by
  unfold collapseWS
  rw [List.dropWhile_append]
  by_cases h : (A.dropWhile isPySpace).isEmpty
  · rw [if_pos h]
    have hBd : B.dropWhile isPySpace = B := by
      cases B with
      | nil => rfl
      | cons b B' =>
        exact List.dropWhile_cons_of_neg (by simp [hBn b (List.mem_cons_self _ _)])
    rw [hBd]
    refine ⟨[], ?_, by simp⟩
    simpa using collapseGo_eq_self_nonws B hBn
  · rw [if_neg h]
    obtain ⟨C, hC, hm⟩ := collapseGo_append_block (A.dropWhile isPySpace) B hB hBn
    exact ⟨C, hC, fun c hc =>
      (hm c hc).imp (fun h' => (List.dropWhile_suffix _).subset h') id⟩

/-- `getLast?` looks only at a nonempty right factor. -/
theorem getLast?_append_right_ne (l₁ l₂ : List Char) (h : l₂ ≠ []) :
    (l₁ ++ l₂).getLast? = l₂.getLast? := by
  induction l₁ with
  | nil => rfl
  | cons a t ih =>
    have hne : t ++ l₂ ≠ [] := List.append_ne_nil_of_right_ne_nil t h
    obtain ⟨b, L, hbl⟩ := List.exists_cons_of_ne_nil hne
    show (a :: (t ++ l₂)).getLast? = l₂.getLast?
    rw [hbl, List.getLast?_cons_cons, ← hbl, ih]

/-- Computation of `splitextL` on a string decomposed as `u ++ '.' :: t`
with `t` nonempty, dot-free and slash-free: the split succeeds exactly when
the last path component of `u` has a non-dot character. -/
theorem splitextL_decomp (u t : List Char)
    (htd : ∀ c ∈ t, c ≠ '.') (hts : ∀ c ∈ t, c ≠ '/') :
    (((u.reverse.takeWhile (fun c => c ≠ '/')).reverse).any (fun c => c ≠ '.') = true →
      splitextL (u ++ '.' :: t) = (u, '.' :: t)) ∧
    (((u.reverse.takeWhile (fun c => c ≠ '/')).reverse).any (fun c => c ≠ '.') = false →
      splitextL (u ++ '.' :: t) = (u ++ '.' :: t, [])) := by
  have hname : ((u ++ '.' :: t).reverse.takeWhile (fun c => c ≠ '/')).reverse =
      (u.reverse.takeWhile (fun c => c ≠ '/')).reverse ++ '.' :: t := by
    rw [show (u ++ '.' :: t).reverse = (t.reverse ++ ['.']) ++ u.reverse by simp]
    rw [List.takeWhile_append_of_pos ?hpos]
    case hpos =>
      intro c hc
      rcases List.mem_append.mp hc with hc1 | hc2
      · simpa using hts c (List.mem_reverse.mp hc1)
      · simp only [List.mem_singleton] at hc2
        subst hc2
        decide
    simp
  have haft : (((u.reverse.takeWhile (fun c => c ≠ '/')).reverse ++
        '.' :: t).reverse.takeWhile (fun c => c ≠ '.')).reverse = t := by
    rw [show ((u.reverse.takeWhile (fun c => c ≠ '/')).reverse ++ '.' :: t).reverse =
      t.reverse ++ '.' :: (u.reverse.takeWhile (fun c => c ≠ '/')) by simp]
    rw [List.takeWhile_append_of_pos ?hpos2]
    case hpos2 =>
      intro c hc
      simpa using htd c (List.mem_reverse.mp hc)
    rw [List.takeWhile_cons_of_neg (by simp)]
    simp
  have hcont : ((u.reverse.takeWhile (fun c => c ≠ '/')).reverse ++
      '.' :: t).contains '.' = true := by
    simp [List.contains]
  have hlen : ((u.reverse.takeWhile (fun c => c ≠ '/')).reverse ++ '.' :: t).length -
      t.length - 1 = (u.reverse.takeWhile (fun c => c ≠ '/')).reverse.length := by
    simp only [List.length_append, List.length_cons]
    omega
  have hstem : ((u.reverse.takeWhile (fun c => c ≠ '/')).reverse ++ '.' :: t).take
      (((u.reverse.takeWhile (fun c => c ≠ '/')).reverse ++ '.' :: t).length -
        t.length - 1) = (u.reverse.takeWhile (fun c => c ≠ '/')).reverse := by
    rw [hlen]
    exact List.take_left _ _
  have htake : (u ++ '.' :: t).take ((u ++ '.' :: t).length - (t.length + 1)) = u := by
    rw [show (u ++ '.' :: t).length - (t.length + 1) = u.length by simp]
    exact List.take_left _ _
  constructor <;> intro hany
  · simp only [splitextL]
    rw [hname, hcont, if_pos rfl, haft, hstem, hany, if_pos rfl, htake]
  · simp only [splitextL]
    rw [hname, hcont, if_pos rfl, haft, hstem, hany]
    simp

/-- The sanitization pipeline of `clean_filename` never leaves a reserved
character in the base name. -/
theorem sanitize_reserved_free (x : List Char) :
    ∀ c ∈ rstripDotSpace (collapseWS (x.filter (fun c => !isReserved c))),
      isReserved c = false := by
  intro c hc
  rcases collapseWS_chars _ c (mem_rstrip _ c hc) with h1 | h1
  · simpa using List.of_mem_filter h1
  · subst h1
    decide

/-- Master lemma for C3: if the lowercased input ends with the lowercased
well-formed extension `'.' :: t`, then `clean_filename` produces a base name
free of reserved characters followed by a case-insensitive copy of that
extension. -/
theorem clean_of_ci_suffix (s t : List Char) (htne : t ≠ [])
    (ht : ∀ c ∈ t, c ≠ '.' ∧ isReserved c = false ∧ isPySpace c = false)
    (hsuf : lowerL ('.' :: t) <:+ lowerL s) :
    ∃ b e, cleanFilenameL s = b ++ e ∧ lowerL e = lowerL ('.' :: t) ∧
      ∀ c ∈ b, isReserved c = false := by
  obtain ⟨pre, hpre⟩ := hsuf
  have hlens := congrArg List.length hpre
  simp only [List.length_append, lowerL, List.length_map, List.length_cons] at hlens
  set m := s.length - (t.length + 1) with hm
  have hdlen : pre.length = m := by omega
  have hle : lowerL (s.drop m) = lowerL ('.' :: t) := by
    have h1 : lowerL (s.drop m) = (lowerL s).drop m := by
      simp [lowerL]
    rw [h1, ← hpre]
    exact List.drop_left' hdlen
  obtain ⟨d, t', hdt⟩ : ∃ d t', s.drop m = d :: t' := by
    cases hsd : s.drop m with
    | nil =>
      exfalso
      have := congrArg List.length hle
      rw [hsd] at this
      simp [lowerL] at this
    | cons d t' => exact ⟨d, t', rfl⟩
  rw [hdt] at hle
  simp only [lowerL, List.map_cons, List.cons.injEq] at hle
  have hd : d = '.' := eq_of_toLower_eq_nonletter d '.' hle.1 (by decide)
  have hlt' : lowerL t' = lowerL t := hle.2
  have ht' : ∀ c ∈ t', c ≠ '.' ∧ isReserved c = false ∧ isPySpace c = false :=
    lower_eq_transfer_good t' t hlt' ht
  have ht'ne : t' ≠ [] := by
    intro hnil
    have := congrArg List.length hlt'
    rw [hnil] at this
    simp only [lowerL, List.length_map, List.length_nil] at this
    exact htne (List.length_eq_zero.mp this.symm)
  have hs2 : s = s.take m ++ '.' :: t' := by
    conv_lhs => rw [← List.take_append_drop m s]
    rw [hdt, hd]
  have ht'd : ∀ c ∈ t', c ≠ '.' := fun c hc => (ht' c hc).1
  have ht's : ∀ c ∈ t', c ≠ '/' := by
    intro c hc heq
    have h2 := (ht' c hc).2.1
    rw [heq] at h2
    exact absurd h2 (by decide)
  obtain ⟨hsplA, hsplB⟩ := splitextL_decomp (s.take m) t' ht'd ht's
  have hlowext : lowerL ('.' :: t') = lowerL ('.' :: t) := by
    unfold lowerL at hlt' ⊢
    simp only [List.map_cons, hlt']
  by_cases hany :
      ((s.take m).reverse.takeWhile (fun c => c ≠ '/')).reverse.any (fun c => c ≠ '.') = true
  · have hsp : splitextL s = (s.take m, '.' :: t') := by
      conv_lhs => rw [hs2]
      exact hsplA hany
    by_cases hempty :
        (rstripDotSpace (collapseWS (((splitextL s).1).filter (fun c => !isReserved c)))).isEmpty
    · refine ⟨renamedFileL, '.' :: t', ?_, hlowext, by decide⟩
      simp only [cleanFilenameL]
      rw [if_pos hempty, hsp]
    · refine ⟨rstripDotSpace (collapseWS (((splitextL s).1).filter (fun c => !isReserved c))),
        '.' :: t', ?_, hlowext, sanitize_reserved_free _⟩
      simp only [cleanFilenameL]
      rw [if_neg hempty, hsp]
  · have hanyf :
        ((s.take m).reverse.takeWhile (fun c => c ≠ '/')).reverse.any (fun c => c ≠ '.') =
          false := Bool.eq_false_iff.mpr hany
    have hsp : splitextL s = (s, []) := by
      conv_lhs => rw [hs2]
      rw [hsplB hanyf, ← hs2]
    have hft' : List.filter (fun c => !isReserved c) t' = t' :=
      List.filter_eq_self.mpr (fun c hc => by simp [(ht' c hc).2.1])
    have hfilter : s.filter (fun c => !isReserved c) =
        (s.take m).filter (fun c => !isReserved c) ++ '.' :: t' := by
      conv_lhs => rw [hs2]
      rw [List.filter_append, List.filter_cons_of_pos (by decide), hft']
    have hBn : ∀ c ∈ ('.' :: t'), isPySpace c = false := by
      intro c hc
      rcases List.mem_cons.mp hc with rfl | hc'
      · decide
      · exact (ht' c hc').2.2
    obtain ⟨C, hC, hCm⟩ := collapseWS_append_block
      ((s.take m).filter (fun c => !isReserved c)) ('.' :: t') (by simp) hBn
    have hlast : ∀ c, (C ++ '.' :: t').getLast? = some c → c ≠ '.' ∧ c ≠ ' ' := by
      intro c hcl
      rw [getLast?_append_right_ne C ('.' :: t') (by simp)] at hcl
      rw [show ('.' :: t') = ['.'] ++ t' from rfl,
        getLast?_append_right_ne ['.'] t' ht'ne] at hcl
      have hcm := List.mem_of_getLast?_eq_some hcl
      have hgood := ht' c hcm
      refine ⟨hgood.1, fun hspc => ?_⟩
      rw [hspc] at hgood
      exact absurd hgood.2.2 (by decide)
    have hname3 : rstripDotSpace (collapseWS (s.filter (fun c => !isReserved c))) =
        C ++ '.' :: t' := by
      rw [hfilter, hC]
      exact rstrip_eq_self _ hlast
    refine ⟨C, '.' :: t', ?_, hlowext, ?_⟩
    · simp only [cleanFilenameL, hsp]
      rw [hname3, if_neg (by simp), List.append_nil]
    · intro c hc
      rcases hCm c hc with h1 | h1
      · simpa using List.of_mem_filter h1
      · subst h1
        decide

/-- C3 (counterexample): for the raw suggestion `a.txt.txt` with original
extension `.txt`, the normalized filename is `a.txt.txt`, which contains the
extension twice, not "exactly once" as claimed. -/
theorem C3_counterexample :
    clean_filename (ensure_extension "a.txt.txt" ".txt") = "a.txt.txt" ∧
    countOcc ".txt".toList (clean_filename (ensure_extension "a.txt.txt" ".txt")).data = 2 := by
  refine ⟨by decide, by decide⟩

/-- C3 (amended): for every raw suggestion and every original extension of
the well-formed shape `'.' :: t` with `t` nonempty and free of dots,
reserved characters and whitespace, the normalized filename (extension
reconciliation followed by sanitization) is non-empty, ends with a
case-insensitive copy of the original extension (which may also occur
earlier in the name), and its base part before that copy contains none of
the reserved filesystem characters. -/
theorem C3_normalized_invariants (raw t : List Char) (htne : t ≠ [])
    (ht : ∀ c ∈ t, c ≠ '.' ∧ isReserved c = false ∧ isPySpace c = false) :
    ∃ b e, cleanFilenameL (ensureExtensionL raw ('.' :: t)) = b ++ e ∧
      lowerL e = lowerL ('.' :: t) ∧ (∀ c ∈ b, isReserved c = false) ∧
      cleanFilenameL (ensureExtensionL raw ('.' :: t)) ≠ [] := by
  have hsuf : lowerL ('.' :: t) <:+ lowerL (ensureExtensionL raw ('.' :: t)) := by
    simp only [ensureExtensionL]
    by_cases hbn : (stripWS raw).isEmpty
    · rw [if_pos hbn]
      rw [show lowerL (renamedFileL ++ '.' :: t) =
        lowerL renamedFileL ++ lowerL ('.' :: t) by simp [lowerL]]
      exact List.suffix_append _ _
    · rw [if_neg hbn]
      by_cases hsufb : (lowerL ('.' :: t)).isSuffixOf (lowerL (stripWS raw)) = true
      · rw [if_neg (fun hcond => hcond.2 hsufb)]
        exact List.isSuffixOf_iff_suffix.mp hsufb
      · rw [if_pos ⟨by simp, hsufb⟩]
        rw [show lowerL (stripWS raw ++ '.' :: t) =
          lowerL (stripWS raw) ++ lowerL ('.' :: t) by simp [lowerL]]
        exact List.suffix_append _ _
  obtain ⟨b, e, h1, h2, h3⟩ := clean_of_ci_suffix _ t htne ht hsuf
  have hene : e ≠ [] := by
    intro h
    rw [h] at h2
    exact absurd (congrArg List.length h2) (by simp [lowerL])
  exact ⟨b, e, h1, h2, h3, by rw [h1]; exact List.append_ne_nil_of_right_ne_nil b hene⟩

/-- C3 (witness for the amended theorem): the suggestion `Cat Photo` with
extension `.jpg` normalizes to the non-empty `Cat Photo.jpg` carrying the
extension. -/
theorem C3_normalized_invariants_witness :
    (∃ b e, cleanFilenameL (ensureExtensionL "Cat Photo".toList ('.' :: "jpg".toList)) =
        b ++ e ∧
      lowerL e = lowerL ('.' :: "jpg".toList) ∧ (∀ c ∈ b, isReserved c = false) ∧
      cleanFilenameL (ensureExtensionL "Cat Photo".toList ('.' :: "jpg".toList)) ≠ []) ∧
    cleanFilenameL (ensureExtensionL "Cat Photo".toList ('.' :: "jpg".toList)) =
      "Cat Photo.jpg".toList :=
  ⟨C3_normalized_invariants "Cat Photo".toList "jpg".toList (by decide) (by decide),
    by decide⟩

-- Machinery for the idempotence analysis of `clean_filename` (C10).

/-- `takeWhile` keeps everything when the predicate holds throughout. -/
theorem takeWhile_eq_self_of_all (p : Char → Bool) (l : List Char)
    (h : ∀ c ∈ l, p c = true) : l.takeWhile p = l :=
  List.takeWhile_eq_self_iff.mpr h

/-- `collapseGo` passes over a whitespace-free block on the left. -/
theorem collapseGo_nonws_append (A w : List Char) (hA : ∀ c ∈ A, isPySpace c = false) :
    collapseGo (A ++ w) = A ++ collapseGo w := by
  induction A with
  | nil => rfl
  | cons a A' ih =>
    rw [show (a :: A') ++ w = a :: (A' ++ w) from rfl,
      collapseGo_cons_nows a (A' ++ w) (hA a (List.mem_cons_self _ _)),
      ih (fun c hc => hA c (List.mem_cons_of_mem _ hc))]
    rfl

/-- The head of `collapseWS` output is never whitespace. -/
theorem collapseWS_head_nonws (l : List Char) :
    ∀ c r, collapseWS l = c :: r → isPySpace c = false := by
  intro c r h
  unfold collapseWS at h
  rcases hd : l.dropWhile isPySpace with _ | ⟨d, dr⟩
  · rw [hd] at h
    simp [collapseGo] at h
  · rw [hd, collapseGo_cons_nows d dr (head_dropWhile_not _ _ _ _ hd)] at h
    injection h with h1 _
    subst h1
    exact head_dropWhile_not _ _ _ _ hd

/-- Taking at most the length of the left factor ignores the right factor. -/
theorem take_append_le (l1 l2 : List Char) (n : Nat) (h : n ≤ l1.length) :
    (l1 ++ l2).take n = l1.take n := by
  induction l1 generalizing n with
  | nil =>
    have : n = 0 := by simpa using h
    simp [this]
  | cons a t ih =>
    cases n with
    | zero => simp
    | succ m =>
      simp only [List.cons_append, List.take_succ_cons]
      rw [ih m (by simpa using h)]

/-- A list whose whitespace is only single, non-leading-pair, non-final
spaces is a fixed point of `collapseGo`. -/
theorem collapseGo_eq_self_normal (y : List Char)
    (h1 : ∀ c ∈ y, isPySpace c = true → c = ' ')
    (h2 : noTwoSpaces y = true)
    (h3 : ∀ c, y.getLast? = some c → c ≠ ' ') : collapseGo y = y := by
  induction y with
  | nil => rfl
  | cons c rest ih =>
    by_cases hc : isPySpace c = true
    · have hcs : c = ' ' := h1 c (List.mem_cons_self _ _) hc
      cases rest with
      | nil =>
        exfalso
        exact h3 c rfl hcs
      | cons d r =>
        have hd : d ≠ ' ' := by
          intro hds
          have := (Bool.and_eq_true _ _).mp h2
          rw [hcs, hds] at this
          simp at this
        have hrec : collapseGo (d :: r) = d :: r :=
          ih (fun x hx => h1 x (List.mem_cons_of_mem _ hx))
            (noTwoSpaces_tail c (d :: r) h2)
            (fun x hx => h3 x (by rw [List.getLast?_cons_cons]; exact hx))
        rw [collapseGo_cons_ws_cons c d (d :: r) r hc hrec, if_neg hd, hcs]
    · rw [collapseGo_cons_nows c rest (Bool.eq_false_iff.mpr hc)]
      cases rest with
      | nil => rfl
      | cons d r =>
        rw [ih (fun x hx => h1 x (List.mem_cons_of_mem _ hx))
          (noTwoSpaces_tail c (d :: r) h2)
          (fun x hx => h3 x (by rw [List.getLast?_cons_cons]; exact hx))]

/-- A name that is already sanitized (no reserved characters, normalized
whitespace, non-whitespace head, good last character) is a fixed point of
the whole sanitization pipeline. -/
theorem pipeline_eq_self (x : List Char)
    (hres : ∀ c ∈ x, isReserved c = false)
    (h1 : ∀ c ∈ x, isPySpace c = true → c = ' ')
    (h2 : noTwoSpaces x = true)
    (hhead : ∀ c r, x = c :: r → isPySpace c = false)
    (hlast : ∀ c, x.getLast? = some c → c ≠ '.' ∧ c ≠ ' ') :
    rstripDotSpace (collapseWS (x.filter (fun c => !isReserved c))) = x := by
  rw [List.filter_eq_self.mpr (fun c hc => by simp [hres c hc])]
  have hWS : collapseWS x = x := by
    unfold collapseWS
    cases x with
    | nil => rfl
    | cons c r =>
      rw [List.dropWhile_cons_of_neg (by simp [hhead c r rfl])]
      exact collapseGo_eq_self_normal (c :: r) h1 h2 (fun d hd => (hlast d hd).2)
  rw [hWS]
  exact rstrip_eq_self x hlast

/-- Whitespace left in the sanitized base name is a plain space. -/
theorem sanitize_ws_space (y : List Char) :
    ∀ c ∈ rstripDotSpace (collapseWS (y.filter (fun c => !isReserved c))),
      isPySpace c = true → c = ' ' := by
  intro c hc
  exact collapseGo_ws_eq_space _ c (mem_rstrip _ c hc)

/-- The sanitized base name has no two adjacent spaces. -/
theorem sanitize_noTwo (y : List Char) :
    noTwoSpaces (rstripDotSpace (collapseWS (y.filter (fun c => !isReserved c)))) = true := by
  obtain ⟨t, ht, _⟩ := rstrip_decomp (collapseWS (y.filter (fun c => !isReserved c)))
  exact noTwoSpaces_append_left _ t (ht ▸ collapseGo_noTwoSpaces _)

/-- The sanitized base name does not start with whitespace. -/
theorem sanitize_head_nonws (y : List Char) :
    ∀ c r, rstripDotSpace (collapseWS (y.filter (fun c => !isReserved c))) = c :: r →
      isPySpace c = false := by
  intro c r h
  obtain ⟨t, ht, _⟩ := rstrip_decomp (collapseWS (y.filter (fun c => !isReserved c)))
  rw [h] at ht
  exact collapseWS_head_nonws _ c (r ++ t) (by rw [ht]; rfl)

/-- Prefixes of an all-dots block followed by a dot-free block have the
leading-dots shape: after the leading dots no dot remains. -/
theorem shape_of_pre (B tail : List Char) (hB : ∀ c ∈ B, c ≠ '.') :
    ∀ A y : List Char, (∀ c ∈ A, c = '.') → A ++ B = y ++ tail →
      (y.dropWhile (fun c => c = '.')).all (fun c => c ≠ '.') = true := by
  intro A
  induction A with
  | nil =>
    intro y hA heq
    simp only [List.nil_append] at heq
    refine List.all_eq_true.mpr (fun x hx => ?_)
    have hxy : x ∈ y := (List.dropWhile_suffix _).subset hx
    have hxB : x ∈ B := by
      rw [heq]
      exact List.mem_append_left _ hxy
    simpa using hB x hxB
  | cons a A' ih =>
    intro y hA heq
    cases y with
    | nil => simp
    | cons c y' =>
      rw [show (a :: A') ++ B = a :: (A' ++ B) from rfl,
        show (c :: y') ++ tail = c :: (y' ++ tail) from rfl] at heq
      injection heq with hac heq'
      have ha : a = '.' := hA a (List.mem_cons_self _ _)
      subst hac
      subst ha
      rw [List.dropWhile_cons_of_pos (by simp)]
      exact ih y' (fun x hx => hA x (List.mem_cons_of_mem _ hx)) heq'

/-- `splitextL` finds no extension on a slash-free input of leading-dots
shape. -/
theorem splitextL_no_ext (x : List Char) (hs : ∀ c ∈ x, c ≠ '/')
    (hshape : (x.dropWhile (fun c => c = '.')).all (fun c => c ≠ '.') = true) :
    splitextL x = (x, []) := by
  have hname : (x.reverse.takeWhile (fun c => c ≠ '/')).reverse = x := by
    rw [takeWhile_eq_self_of_all _ _ (fun c hc => by
      simpa using hs c (List.mem_reverse.mp hc)), List.reverse_reverse]
  by_cases hdot : x.contains '.' = true
  · have hmem : '.' ∈ x := by
      simpa [List.contains] using hdot
    have hx : x.takeWhile (fun c => c = '.') ++ x.dropWhile (fun c => c = '.') = x :=
      List.takeWhile_append_dropWhile _ _
    have hDdots : ∀ c ∈ x.takeWhile (fun c => c = '.'), c = '.' := fun c hc => by
      simpa using List.mem_takeWhile_imp hc
    have hwnd : ∀ c ∈ x.dropWhile (fun c => c = '.'), c ≠ '.' := fun c hc => by
      simpa using List.all_eq_true.mp hshape c hc
    have hDne : x.takeWhile (fun c => c = '.') ≠ [] := by
      intro hnil
      rw [hnil, List.nil_append] at hx
      refine hwnd '.' ?_ rfl
      rw [hx]
      exact hmem
    have haft : (x.reverse.takeWhile (fun c => c ≠ '.')).reverse =
        x.dropWhile (fun c => c = '.') := by
      conv_lhs => rw [← hx]
      obtain ⟨d0, D', hD'⟩ := List.exists_cons_of_ne_nil hDne
      have hd0 : d0 = '.' := hDdots d0 (hD' ▸ List.mem_cons_self _ _)
      rw [show (x.takeWhile (fun c => c = '.') ++ x.dropWhile (fun c => c = '.')).reverse =
        (x.dropWhile (fun c => c = '.')).reverse ++
          (x.takeWhile (fun c => c = '.')).reverse by simp]
      rw [List.takeWhile_append_of_pos (fun c hc => by
        simpa using hwnd c (List.mem_reverse.mp hc))]
      rw [hD', hd0]
      rw [show ('.' :: D').reverse = D'.reverse ++ ['.'] by simp]
      have hallD' : ∀ c ∈ D'.reverse ++ ['.'], c = '.' := by
        intro c hc
        rcases List.mem_append.mp hc with hc1 | hc2
        · exact hDdots c (hD' ▸ List.mem_cons_of_mem _ (List.mem_reverse.mp hc1))
        · simpa using hc2
      rcases hcase : D'.reverse ++ ['.'] with _ | ⟨e0, E⟩
      · simp at hcase
      · have he0 : e0 = '.' := hallD' e0 (hcase ▸ List.mem_cons_self _ _)
        rw [List.takeWhile_cons_of_neg (by simp [he0])]
        simp
    have hstemdots : ∀ c ∈ x.take (x.length -
        (x.dropWhile (fun c => c = '.')).length - 1), c = '.' := by
      intro c hc
      have hxlen : (x.takeWhile (fun c => c = '.')).length +
          (x.dropWhile (fun c => c = '.')).length = x.length := by
        have hl := congrArg List.length hx
        rw [List.length_append] at hl
        exact hl
      have harith : x.length - (x.dropWhile (fun c => c = '.')).length - 1 =
          (x.takeWhile (fun c => c = '.')).length - 1 := by omega
      rw [harith] at hc
      have hc2 : c ∈ (x.takeWhile (fun c => c = '.') ++
          x.dropWhile (fun c => c = '.')).take
            ((x.takeWhile (fun c => c = '.')).length - 1) := by
        rw [hx]
        exact hc
      rw [take_append_le (x.takeWhile (fun c => c = '.'))
        (x.dropWhile (fun c => c = '.'))
        ((x.takeWhile (fun c => c = '.')).length - 1) (by omega)] at hc2
      exact hDdots c (List.mem_of_mem_take hc2)
    simp only [splitextL]
    rw [hname, hdot, if_pos rfl, haft]
    rw [if_neg ?hstem]
    case hstem =>
      intro hany
      obtain ⟨cc, hcc, hccp⟩ := List.any_eq_true.mp hany
      exact absurd (hstemdots cc hcc) (by simpa using hccp)
  · simp only [splitextL]
    rw [hname]
    rw [if_neg hdot]

/-- Inversion of `splitextL` on slash-free input containing a dot: the input
splits as `stem ++ '.' :: aft` at the last dot, and the extension is found
exactly when the stem has a non-dot character. -/
theorem splitextL_slashfree (s : List Char) (hs : ∀ c ∈ s, c ≠ '/') (hdot : '.' ∈ s) :
    ∃ stem aft : List Char,
      s = stem ++ '.' :: aft ∧
      (∀ c ∈ aft, c ≠ '.') ∧ (∀ c ∈ aft, c ≠ '/') ∧
      (stem.any (fun c => c ≠ '.') = true → splitextL s = (stem, '.' :: aft)) ∧
      (stem.any (fun c => c ≠ '.') = false → splitextL s = (s, [])) := by
  have h1 : s.reverse.takeWhile (fun c => c ≠ '.') ++
      s.reverse.dropWhile (fun c => c ≠ '.') = s.reverse :=
    List.takeWhile_append_dropWhile _ _
  have hne : s.reverse.dropWhile (fun c => c ≠ '.') ≠ [] := by
    intro h
    have hall := List.dropWhile_eq_nil_iff.mp h
    have := hall '.' (List.mem_reverse.mpr hdot)
    simp at this
  obtain ⟨d, z, hdz⟩ := List.exists_cons_of_ne_nil hne
  have hd : d = '.' := by
    have := head_dropWhile_not _ _ _ _ hdz
    simpa using this
  subst hd
  set aft := (s.reverse.takeWhile (fun c => c ≠ '.')).reverse with haftdef
  have hTrev : s.reverse.takeWhile (fun c => c ≠ '.') = aft.reverse := by
    rw [haftdef, List.reverse_reverse]
  have h2 : s.reverse = aft.reverse ++ '.' :: z := by
    rw [← h1, hdz, hTrev]
  have hseq : s = z.reverse ++ '.' :: aft := by
    have h3 := congrArg List.reverse h2
    rw [List.reverse_reverse] at h3
    rw [h3]
    simp
  have haftd : ∀ c ∈ aft, c ≠ '.' := by
    intro c hc
    rw [haftdef] at hc
    simpa using List.mem_takeWhile_imp (List.mem_reverse.mp hc)
  have hafts : ∀ c ∈ aft, c ≠ '/' := by
    intro c hc
    rw [haftdef] at hc
    refine hs c ?_
    have h4 : c ∈ s.reverse.takeWhile (fun c => c ≠ '.') := List.mem_reverse.mp hc
    have h5 : c ∈ s.reverse := by
      rw [← h1]
      exact List.mem_append_left _ h4
    exact List.mem_reverse.mp h5
  have hzs : ∀ c ∈ z.reverse, c ≠ '/' := by
    intro c hc
    refine hs c ?_
    have h4 : c ∈ s.reverse.dropWhile (fun c => c ≠ '.') := by
      rw [hdz]
      exact List.mem_cons_of_mem _ (List.mem_reverse.mp hc)
    exact List.mem_reverse.mp ((List.dropWhile_suffix _).subset h4)
  obtain ⟨hA, hB⟩ := splitextL_decomp z.reverse aft haftd hafts
  have hcond : ((z.reverse.reverse.takeWhile (fun c => c ≠ '/')).reverse) = z.reverse := by
    rw [List.reverse_reverse,
      takeWhile_eq_self_of_all _ _ (fun c hc => by
        simpa using hzs c (List.mem_reverse.mpr hc))]
  rw [hcond] at hA hB
  refine ⟨z.reverse, aft, hseq, haftd, hafts, ?_, ?_⟩
  · intro hany
    rw [hseq]
    exact hA hany
  · intro hany
    rw [hseq]
    rw [hB hany, ← hseq]

/-- Idempotence tail for the no-extension case: when `splitextL` finds no
extension and the sanitized base has the leading-dots shape, a second
`clean_filename` is the identity. -/
theorem cleanL_no_ext_tail (s : List Char)
    (hsp : splitextL s = (s, []))
    (hshape3 : ((rstripDotSpace (collapseWS (s.filter (fun c => !isReserved c)))).dropWhile
        (fun c => c = '.')).all (fun c => c ≠ '.') = true) :
    cleanFilenameL (cleanFilenameL s) = cleanFilenameL s := by
  by_cases hempty : (rstripDotSpace (collapseWS (s.filter (fun c => !isReserved c)))).isEmpty
  · have hr : cleanFilenameL s = renamedFileL := by
      simp only [cleanFilenameL, hsp]
      rw [if_pos hempty, List.append_nil]
    rw [hr]
    decide
  · have hr : cleanFilenameL s =
        rstripDotSpace (collapseWS (s.filter (fun c => !isReserved c))) := by
      simp only [cleanFilenameL, hsp]
      rw [if_neg hempty, List.append_nil]
    rw [hr]
    have hn3res := sanitize_reserved_free s
    have hn3nos : ∀ c ∈ rstripDotSpace (collapseWS (s.filter (fun c => !isReserved c))),
        c ≠ '/' := by
      intro c hc heq
      have := hn3res c hc
      rw [heq] at this
      exact absurd this (by decide)
    have hsp2 : splitextL (rstripDotSpace (collapseWS (s.filter (fun c => !isReserved c)))) =
        (rstripDotSpace (collapseWS (s.filter (fun c => !isReserved c))), []) :=
      splitextL_no_ext _ hn3nos hshape3
    simp only [cleanFilenameL, hsp2]
    rw [pipeline_eq_self _ hn3res (sanitize_ws_space s) (sanitize_noTwo s)
      (sanitize_head_nonws s) (rstrip_getLast _)]
    rw [if_neg hempty, List.append_nil]

/-- Idempotence tail for the extension case: when `splitextL` splits off a
dot-free, slash-free extension, a second `clean_filename` is the identity. -/
theorem cleanL_ext_tail (s n aft : List Char)
    (haftd : ∀ c ∈ aft, c ≠ '.') (hafts : ∀ c ∈ aft, c ≠ '/')
    (hsp : splitextL s = (n, '.' :: aft)) :
    cleanFilenameL (cleanFilenameL s) = cleanFilenameL s := by
  by_cases hempty : (rstripDotSpace (collapseWS (n.filter (fun c => !isReserved c)))).isEmpty
  · have hr : cleanFilenameL s = renamedFileL ++ '.' :: aft := by
      simp only [cleanFilenameL, hsp]
      rw [if_pos hempty]
    rw [hr]
    obtain ⟨hA, _⟩ := splitextL_decomp renamedFileL aft haftd hafts
    have hsp2 := hA (by decide)
    simp only [cleanFilenameL, hsp2]
    rw [show rstripDotSpace (collapseWS (renamedFileL.filter (fun c => !isReserved c))) =
      renamedFileL from by decide]
    rw [if_neg (by decide)]
  · have hr : cleanFilenameL s =
        rstripDotSpace (collapseWS (n.filter (fun c => !isReserved c))) ++ '.' :: aft := by
      simp only [cleanFilenameL, hsp]
      rw [if_neg hempty]
    rw [hr]
    have hn3res := sanitize_reserved_free n
    have hn3ne : rstripDotSpace (collapseWS (n.filter (fun c => !isReserved c))) ≠ [] := by
      simpa [List.isEmpty_iff] using hempty
    obtain ⟨lc, hlc⟩ : ∃ lc,
        (rstripDotSpace (collapseWS (n.filter (fun c => !isReserved c)))).getLast? =
          some lc := by
      obtain ⟨d0, r0, h0⟩ := List.exists_cons_of_ne_nil hn3ne
      exact ⟨(d0 :: r0).getLast (by simp), by rw [h0]; exact List.getLast?_eq_getLast _ _⟩
    have hlcd := rstrip_getLast _ lc hlc
    obtain ⟨hA, _⟩ := splitextL_decomp
      (rstripDotSpace (collapseWS (n.filter (fun c => !isReserved c)))) aft haftd hafts
    have hn3nos : ∀ c ∈ rstripDotSpace (collapseWS (n.filter (fun c => !isReserved c))),
        c ≠ '/' := by
      intro c hc heq
      have := hn3res c hc
      rw [heq] at this
      exact absurd this (by decide)
    have hcond :
        (((rstripDotSpace (collapseWS (n.filter (fun c => !isReserved c)))).reverse.takeWhile
          (fun c => c ≠ '/')).reverse).any (fun c => c ≠ '.') = true := by
      rw [takeWhile_eq_self_of_all _ _ (fun c hc => by
        simpa using hn3nos c (List.mem_reverse.mp hc)), List.reverse_reverse]
      exact List.any_eq_true.mpr ⟨lc, List.mem_of_getLast?_eq_some hlc, by simp [hlcd.1]⟩
    have hsp2 := hA hcond
    simp only [cleanFilenameL, hsp2]
    rw [pipeline_eq_self _ hn3res (sanitize_ws_space n) (sanitize_noTwo n)
      (sanitize_head_nonws n) (rstrip_getLast _)]
    rw [if_neg hempty]

/-- On inputs without reserved characters, `clean_filename` is idempotent
(list level). -/
theorem cleanL_idempotent_of_no_reserved (s : List Char)
    (hres : ∀ c ∈ s, isReserved c = false) :
    cleanFilenameL (cleanFilenameL s) = cleanFilenameL s := by
  have hnos : ∀ c ∈ s, c ≠ '/' := by
    intro c hc heq
    have := hres c hc
    rw [heq] at this
    exact absurd this (by decide)
  have hfe : s.filter (fun c => !isReserved c) = s :=
    List.filter_eq_self.mpr (fun c hc => by simp [hres c hc])
  by_cases hdot : '.' ∈ s
  · obtain ⟨stem, aft, hseq, haftd, hafts, hA, hB⟩ := splitextL_slashfree s hnos hdot
    by_cases hany : stem.any (fun c => c ≠ '.') = true
    · exact cleanL_ext_tail s stem aft haftd hafts (hA hany)
    · have hsp := hB (Bool.eq_false_iff.mpr hany)
      have hstemdots : ∀ c ∈ stem, c = '.' := by
        intro c hc
        have := List.any_eq_false.mp (Bool.eq_false_iff.mpr hany) c hc
        simpa using this
      apply cleanL_no_ext_tail s hsp
      rw [hfe]
      have hsA : s = (stem ++ ['.']) ++ aft := by
        rw [hseq]
        simp
      have hAdots : ∀ c ∈ stem ++ ['.'], c = '.' := by
        intro c hc
        rcases List.mem_append.mp hc with h | h
        · exact hstemdots c h
        · simpa using h
      have hAnonws : ∀ c ∈ stem ++ ['.'], isPySpace c = false := by
        intro c hc
        rw [hAdots c hc]
        decide
      obtain ⟨a, t, hat⟩ : ∃ a t, stem ++ ['.'] = a :: t :=
        List.exists_cons_of_ne_nil (by simp)
      have hdw : s.dropWhile isPySpace = s := by
        rw [hsA, hat, show (a :: t) ++ aft = a :: (t ++ aft) from rfl]
        rw [List.dropWhile_cons_of_neg (by
          simp [hAnonws a (by rw [hat]; exact List.mem_cons_self _ _)])]
      have hcoll : collapseWS s = (stem ++ ['.']) ++ collapseGo aft := by
        unfold collapseWS
        rw [hdw]
        conv_lhs => rw [hsA]
        exact collapseGo_nonws_append _ _ hAnonws
      have hCd : ∀ c ∈ collapseGo aft, c ≠ '.' := by
        intro c hc
        rcases collapseGo_chars _ c hc with h | h
        · exact haftd c h
        · rw [h]
          decide
      obtain ⟨tail, htail, _⟩ := rstrip_decomp (collapseWS s)
      have heq2 : (stem ++ ['.']) ++ collapseGo aft =
          rstripDotSpace (collapseWS s) ++ tail := by
        rw [← hcoll]
        exact htail
      exact shape_of_pre (collapseGo aft) tail hCd (stem ++ ['.'])
        (rstripDotSpace (collapseWS s)) hAdots heq2
  · have hsd : ∀ c ∈ s, c ≠ '.' := fun c hc heq => hdot (heq ▸ hc)
    have hshape_s : (s.dropWhile (fun c => c = '.')).all (fun c => c ≠ '.') = true :=
      List.all_eq_true.mpr (fun x hx => by
        simpa using hsd x ((List.dropWhile_suffix _).subset hx))
    have hsp := splitextL_no_ext s hnos hshape_s
    apply cleanL_no_ext_tail s hsp
    rw [hfe]
    refine List.all_eq_true.mpr (fun x hx => ?_)
    have hx1 : x ∈ rstripDotSpace (collapseWS s) := (List.dropWhile_suffix _).subset hx
    have hx2 := mem_rstrip _ x hx1
    rcases collapseWS_chars _ x hx2 with h | h
    · simpa using hsd x h
    · rw [h]
      simp

/-- C10 (counterexample): `clean_filename` is not idempotent: on `..a/..b`
the first pass removes the slash, producing `..a..b`, and a second pass then
finds an extension boundary that was not there before and produces the
different name `..a.b`. -/
theorem C10_counterexample :
    clean_filename "..a/..b" = "..a..b" ∧
    clean_filename (clean_filename "..a/..b") = "..a.b" ∧
    clean_filename (clean_filename "..a/..b") ≠ clean_filename "..a/..b" := by
  refine ⟨by decide, by decide, by decide⟩

/-- C10 (amended): `clean_filename` is idempotent on every input containing
none of the reserved characters; non-idempotence requires a reserved
character whose removal moves the `splitext` extension boundary. -/
theorem C10_clean_filename_idempotent (s : String)
    (hres : ∀ c ∈ s.data, isReserved c = false) :
    clean_filename (clean_filename s) = clean_filename s :=
  congrArg String.mk (cleanL_idempotent_of_no_reserved s.data hres)

/-- C10 (witness for the amended theorem): evaluated at `My  Report..`,
whose cleaned form `My Report.` is a fixed point. -/
theorem C10_clean_filename_idempotent_witness :
    clean_filename (clean_filename "My  Report..") = clean_filename "My  Report.." ∧
    clean_filename "My  Report.." = "My Report." :=
  ⟨C10_clean_filename_idempotent "My  Report.." (by decide), by decide⟩

end AIFileRenamer
